import Mathlib

/-!
Verification development for the latent-ideology correspondence-analysis
pipeline (`latent_ideology_class.py`).  The pandas/numpy code is shallowly
embedded: interaction tables become lists of records with natural-number
identifiers and rational weights, pandas group-by/sort/unique primitives
become explicit list functions, and the real-valued score engine is embedded
over `ℝ` with the randomized SVD output treated as an oracle parameter
(the source calls `randomized_svd` with `random_state=None`, which is not a
deterministic function).
-/

/-- First-seen deduplication with an accumulator of already seen elements.
Mirrors the semantics of `pandas.Series.unique()`, which keeps the first
occurrence of each value in encounter order. -/
def uniqueFirstAux {α : Type} [DecidableEq α] (seen : List α) : List α → List α
  | [] => []
  | x :: xs =>
    if x ∈ seen then uniqueFirstAux seen xs
    else x :: uniqueFirstAux (x :: seen) xs

/-- First-seen order deduplication (`pandas.Series.unique()`). -/
def uniqueFirst {α : Type} [DecidableEq α] (l : List α) : List α :=
  uniqueFirstAux [] l

/-- Insert an element into a list, placing it before the first element `y`
with `le x y = true`.  Used to embed the deterministic part of pandas'
sorting primitives. -/
def insertBy {α : Type} (le : α → α → Bool) (x : α) : List α → List α
  | [] => [x]
  | y :: ys => if le x y then x :: y :: ys else y :: insertBy le x ys

/-- Insertion sort with comparator `le`; stable with respect to the input
order for ties (an element is inserted after earlier-listed ties). -/
def sortBy {α : Type} (le : α → α → Bool) : List α → List α
  | [] => []
  | x :: xs => insertBy le x (sortBy le xs)

/-! ### Matrix Builder (`make_adjacency`, lines 26-161)

An interaction record carries a target identifier, a source identifier and a
weight (the weight field is read only when the `weight=True` flag is set,
matching the optional `weight_name` column of the dataframe).  Identifiers
are embedded as naturals, weights as rationals. -/

structure IRec where
  target : ℕ
  source : ℕ
  w : ℚ
deriving DecidableEq, Repr

/-- Comparator embedding `a <= b` on naturals. -/
def leNat (a b : ℕ) : Bool := decide (a ≤ b)

/-- Ascending sort of the distinct values of a list, in the way
`DataFrame.groupby` produces its group keys (sorted, deduplicated). -/
def groupKeys (l : List ℕ) : List ℕ := sortBy leNat (uniqueFirst l)

/-- Drop stage (lines 66-75): remove every record whose target or source
identifier occurs in `drop`. -/
def dropStage (drop : List ℕ) (df : List IRec) : List IRec :=
  df.filter (fun r => decide (r.target ∉ drop ∧ r.source ∉ drop))

/-- Total interaction count of a target: `groupby('target').count()`
(line 80). -/
def countTarget (df : List IRec) (t : ℕ) : ℕ :=
  (df.filter (fun r => decide (r.target = t))).length

/-- Targets whose total interaction count is strictly below `k`
(`df2.query('counter < @k')`, line 81). -/
def interactionsCount (df : List IRec) (k : ℕ) : List ℕ :=
  (groupKeys (df.map (·.target))).filter (fun t => decide (countTarget df t < k))

/-- Threshold 0 (line 82): keep the records whose target's total count is
strictly below `k`. -/
def th0 (df : List IRec) (k : ℕ) : List IRec :=
  df.filter (fun r => decide (r.target ∈ interactionsCount df k))

/-- Distinct sources a target interacted with, over the given record set
(lines 85-98: `set(source_asocciated)`). -/
def distinctSources (df : List IRec) (t : ℕ) : List ℕ :=
  uniqueFirst ((df.filter (fun r => decide (r.target = t))).map (·.source))

/-- Targets retained by threshold 1 (lines 99-102): distinct-source count at
least `n`. -/
def targetsTh1 (df0 : List IRec) (n : ℕ) : List ℕ :=
  (groupKeys (df0.map (·.target))).filter
    (fun t => decide (n ≤ (distinctSources df0 t).length))

/-- Threshold 1 record filter (line 103). -/
def th1 (df0 : List IRec) (n : ℕ) : List IRec :=
  df0.filter (fun r => decide (r.target ∈ targetsTh1 df0 n))

/-- Total record count of a source over a record set
(`groupby('source').count()`, line 106 — note: rows, not distinct
targets). -/
def countSource (df1 : List IRec) (s : ℕ) : ℕ :=
  (df1.filter (fun r => decide (r.source = s))).length

/-- Top-`m` sources (line 106): group keys (sorted distinct sources), then
sorted by descending record count, then `head(m)`.  The source uses pandas'
default unstable quicksort for the count sort; the embedding uses a stable
sort, so statements proved about tie order are limited to tie-independent
facts. -/
def topSources (df1 : List IRec) (m : ℕ) : List ℕ :=
  (sortBy (fun a b => decide (countSource df1 b ≤ countSource df1 a))
      (groupKeys (df1.map (·.source)))).take m

/-- Threshold 2 record filter (line 107). -/
def th2 (df1 : List IRec) (m : ℕ) : List IRec :=
  df1.filter (fun r => decide (r.source ∈ topSources df1 m))

/-- The three filtering stages composed, with the resolved values of the
`m`, `n`, `k` parameters. -/
def filteredRecords (df : List IRec) (mv n kv : ℕ) (drop : List ℕ) : List IRec :=
  th2 (th1 (th0 (dropStage drop df) kv) n) mv

/-- `source_list` (line 110): unique sources of the filtered set in
first-encounter order (`Series.unique`). -/
def sourceList (df2 : List IRec) : List ℕ :=
  uniqueFirst (df2.map (·.source))

/-- Number of raw records for a (target, source) pair of the filtered set
(the per-pair `weight` computed by the `weight == False` branch,
lines 117-126). -/
def countPair (df2 : List IRec) (t s : ℕ) : ℕ :=
  (df2.filter (fun r => decide (r.target = t ∧ r.source = s))).length

/-- Lexicographic comparator on (target, source) pairs, the key order of
`groupby(by=['target','source'])`. -/
def lePair (a b : ℕ × ℕ) : Bool :=
  decide (a.1 < b.1 ∨ (a.1 = b.1 ∧ a.2 ≤ b.2))

/-- The weighted record table `dfw` (lines 117-128): with an explicit weight
column the filtered records are used directly; otherwise one record per
(target, source) pair of the filtered set is produced, weighted by the pair's
raw record count, the pairs listed in the sorted order of the final
`groupby(['target','source']).sum()`. -/
def dfwOf (weightFlag : Bool) (df2 : List IRec) : List IRec :=
  if weightFlag then df2
  else
    (sortBy lePair (uniqueFirst (df2.map (fun r => (r.target, r.source))))).map
      (fun p => ⟨p.1, p.2, (countPair df2 p.1 p.2 : ℚ)⟩)

/-- One cell of the assembled matrix (lines 146-152): the summed weight of
the `dfw` records of the given target and source (`fillna(0)` makes absent
pairs contribute the empty sum, i.e. 0). -/
def entryOf (dfw : List IRec) (t s : ℕ) : ℚ :=
  ((dfw.filter (fun r => decide (r.target = t ∧ r.source = s))).map (·.w)).sum

/-- Row labels of the assembled matrix: the final `groupby('target').sum()`
(line 152) over the concatenation of the per-source columns produces the
distinct targets having a record with a source of `source_list`, in
ascending sorted order (group keys are sorted). -/
def rowIds (dfw : List IRec) (cols : List ℕ) : List ℕ :=
  groupKeys ((dfw.filter (fun r => decide (r.source ∈ cols))).map (·.target))

/-- The dense adjacency matrix: row labels, column labels, and the cell
contents as a function of the labels. -/
structure AdjMatrix where
  rows : List ℕ
  cols : List ℕ
  entry : ℕ → ℕ → ℚ

/-- `make_adjacency` (lines 26-161), for the matrix output.  `m = none` and
`k = none` model the `None` defaults: `m` falls back to the row count of the
input dataframe (line 61) and `k` to `1e23` (line 63).  The function has no
parameter validation and raises no custom errors; the one failure mode is
the `pd.concat` of an empty list (line 126 or 152) when filtering removed
every record, which raises a pandas `ValueError` — embedded as `none`. -/
def makeAdjacency (df : List IRec) (weightFlag : Bool) (m k : Option ℕ)
    (n : ℕ) (drop : List ℕ) : Option AdjMatrix :=
  let mv := m.getD df.length
  let kv := k.getD (10 ^ 23)
  let df2 := filteredRecords df mv n kv drop
  let srcs := sourceList df2
  let dfw := dfwOf weightFlag df2
  if srcs = [] then none
  else some ⟨rowIds dfw srcs, srcs, entryOf dfw⟩

/-! ### Minimum and maximum of a vector (`np.min`, `np.max`, `np.ptp`) -/

/-- `np.min` of a nonempty array, as a left fold. -/
def listMin {α : Type} [LinearOrder α] [Inhabited α] : List α → α
  | [] => default
  | x :: xs => xs.foldl min x

/-- `np.max` of a nonempty array, as a left fold. -/
def listMax {α : Type} [LinearOrder α] [Inhabited α] : List α → α
  | [] => default
  | x :: xs => xs.foldl max x

/-! ### Score Engine (`calculate_scores`, lines 165-221)

The matrix pipeline is embedded over `ℝ`.  The truncated SVD
(`randomized_svd(S, n_components=1, n_iter=5, random_state=None)`) is a
randomized iterative routine with no fixed seed, so its output — the first
left singular column `U` — enters the embedding as an oracle parameter; the
deterministic computation before it (normalization and standardized
residuals) and after it (rescaling `Dr2 @ U` into `[-1, 1]`) is embedded
exactly. -/

/-- `np.sum(A)`: grand total of all cells. -/
noncomputable def gtotal {nr nc : ℕ} (A : Matrix (Fin nr) (Fin nc) ℝ) : ℝ :=
  ∑ i, ∑ j, A i j

/-- `P = (1/np.sum(A)) * A` (line 188). -/
noncomputable def Pmat {nr nc : ℕ} (A : Matrix (Fin nr) (Fin nc) ℝ) :
    Matrix (Fin nr) (Fin nc) ℝ :=
  (1 / gtotal A) • A

/-- `r = np.matmul(P, np.ones((n_col,)))` (line 193): row marginals. -/
noncomputable def rmarg {nr nc : ℕ} (A : Matrix (Fin nr) (Fin nc) ℝ) :
    Fin nr → ℝ :=
  (Pmat A).mulVec (fun _ => 1)

/-- `c = np.matmul(np.ones((n_row,)), P)` (line 194): column marginals. -/
noncomputable def cmarg {nr nc : ℕ} (A : Matrix (Fin nr) (Fin nc) ℝ) :
    Fin nc → ℝ :=
  Matrix.vecMul (fun _ => 1) (Pmat A)

/-- `x ** (-0.5)` for the positive marginals (lines 195-196): the inverse
square root. -/
noncomputable def invsqrt (x : ℝ) : ℝ := (Real.sqrt x)⁻¹

/-- `Dr2 = np.diag(r2)` (line 197). -/
noncomputable def Dr2 {nr nc : ℕ} (A : Matrix (Fin nr) (Fin nc) ℝ) :
    Matrix (Fin nr) (Fin nr) ℝ :=
  Matrix.diagonal (fun i => invsqrt (rmarg A i))

/-- `Dc2 = np.diag(c2)` (line 198). -/
noncomputable def Dc2 {nr nc : ℕ} (A : Matrix (Fin nr) (Fin nc) ℝ) :
    Matrix (Fin nc) (Fin nc) ℝ :=
  Matrix.diagonal (fun j => invsqrt (cmarg A j))

/-- `S = np.matmul(np.matmul(Dr2, P - np.matmul(r_t, c_new)), Dc2)`
(line 203): the standardized residual matrix handed to the truncated SVD;
`np.matmul(r_t, c_new)` is the outer product of the marginal vectors. -/
noncomputable def Smat {nr nc : ℕ} (A : Matrix (Fin nr) (Fin nc) ℝ) :
    Matrix (Fin nr) (Fin nc) ℝ :=
  (Dr2 A * (Pmat A - Matrix.vecMulVec (rmarg A) (cmarg A))) * Dc2 A

/-- `X_dim1 = np.matmul(Dr2, U)` (line 218), with `U` the oracle output of
the truncated SVD. -/
noncomputable def X_dim1 {nr nc : ℕ} (A : Matrix (Fin nr) (Fin nc) ℝ)
    (U : Fin nr → ℝ) : Fin nr → ℝ :=
  (Dr2 A).mulVec U

/-- `scores = -1 + 2 * (X_dim1 - np.min(X_dim1)) / np.ptp(X_dim1)`
(line 219), as a list with one score per row; `np.ptp` is max minus min. -/
noncomputable def scoresList {nr nc : ℕ} (A : Matrix (Fin nr) (Fin nc) ℝ)
    (U : Fin nr → ℝ) : List ℝ :=
  (List.ofFn (X_dim1 A U)).map (fun v =>
    -1 + 2 * (v - listMin (List.ofFn (X_dim1 A U))) /
      (listMax (List.ofFn (X_dim1 A U)) - listMin (List.ofFn (X_dim1 A U))))

/-! ### Aggregator (`apply_method`, lines 299-352)

`df_final` joins each filtered interaction record with its target's score
(line 307); the aggregation below consumes the three columns it reads:
source, score, weight.  The score values enter the embedding as exact
rationals: the aggregation algebra is field arithmetic, and the claims about
it are arithmetic identities. -/

structure SRow where
  source : ℕ
  score : ℚ
  w : ℚ
deriving DecidableEq, Repr

/-- Group keys of `groupby(by=['source'])` (lines 314 and 344): distinct
sources in ascending order. -/
def srcKeys (rows : List SRow) : List ℕ :=
  sortBy leNat (uniqueFirst (rows.map (·.source)))

/-- Scores of the records of one source (the `groups` Index of row labels,
where the index is the score column, line 344). -/
def groupScores (rows : List SRow) (s : ℕ) : List ℚ :=
  (rows.filter (fun r => decide (r.source = s))).map (·.score)

/-- Unweighted branch (lines 343-352): per source, `np.mean` of the scores
of its records, sources in group-key order (the final
`sort_values(by='score')` presentation step is not part of the per-source
score mapping). -/
def unweightedAgg (rows : List SRow) : List (ℕ × ℚ) :=
  (srcKeys rows).map (fun s =>
    (s, (groupScores rows s).sum / ((groupScores rows s).length : ℚ)))

/-- Lexicographic comparator on (source, weight) tuples, the key order of
`groupby(by=['source', 'weight'])` (line 312). -/
def leSW (a b : ℕ × ℚ) : Bool :=
  decide (a.1 < b.1 ∨ (a.1 = b.1 ∧ a.2 ≤ b.2))

/-- Group keys of `groupby(by=['source', 'weight'])` (line 312): distinct
(source, weight) tuples in ascending lexicographic order. -/
def swKeys (rows : List SRow) : List (ℕ × ℚ) :=
  sortBy leSW (uniqueFirst (rows.map (fun r => (r.source, r.w))))

/-- Scores of the records of one (source, weight) group (line 312). -/
def gScores (rows : List SRow) (key : ℕ × ℚ) : List ℚ :=
  (rows.filter (fun r => decide (r.source = key.1 ∧ r.w = key.2))).map (·.score)

/-- `np.sum(list(groups_dict[key])) * key[1]` (lines 323 and 332). -/
def sContrib (rows : List SRow) (key : ℕ × ℚ) : ℚ :=
  (gScores rows key).sum * key.2

/-- `len(list(groups_dict[key])) * key[1]` (lines 324 and 333). -/
def lContrib (rows : List SRow) (key : ℕ × ℚ) : ℚ :=
  ((gScores rows key).length : ℚ) * key.2

/-- The accumulator loop of the weighted branch (lines 320-337): walk the
tuple keys; while the source matches `last`, add contributions to the
accumulators; on a source change flush `sum(score_list_w)/sum(length_w)`;
after processing the final key, flush once more. -/
def wLoop (rows : List SRow) : List (ℕ × ℚ) → ℕ → ℚ → ℚ → List ℚ
  | [], _, _, _ => []
  | key :: rest, last, sAcc, lAcc =>
    if key.1 = last then
      (if rest = [] then [(sAcc + sContrib rows key) / (lAcc + lContrib rows key)]
       else wLoop rows rest key.1 (sAcc + sContrib rows key) (lAcc + lContrib rows key))
    else
      (sAcc / lAcc) ::
        (if rest = [] then [sContrib rows key / lContrib rows key]
         else wLoop rows rest key.1 (sContrib rows key) (lContrib rows key))

/-- Weighted branch (lines 311-341): `last_key = keys_list[0][0]` fails on
an empty key list (`IndexError`, embedded as `none`); otherwise the flushed
means are zipped with the plain source keys. -/
def weightedAgg (rows : List SRow) : Option (List (ℕ × ℚ)) :=
  match swKeys rows with
  | [] => none
  | k0 :: rest => some ((srcKeys rows).zip (wLoop rows (k0 :: rest) k0.1 0 0))

/-! ### Integer casts of the adjacency matrix (`apply_simplified_method`
lines 239-242, `apply_method` lines 300-301)

`df_adjacency.to_numpy(dtype = int)` converts each rational cell with the
C-style float-to-int conversion, truncation toward zero. -/

/-- Truncation toward zero of a rational (`dtype = int` cast). -/
def truncQ (q : ℚ) : ℤ := if 0 ≤ q then ⌊q⌋ else ⌈q⌉

/-- The real matrix handed to `calculate_scores` by
`df_adjacency.to_numpy(dtype = int)`. -/
noncomputable def castIntMatrix {nr nc : ℕ} (M : Matrix (Fin nr) (Fin nc) ℚ) :
    Matrix (Fin nr) (Fin nc) ℝ :=
  fun i j => ((truncQ (M i j) : ℤ) : ℝ)

/-- The rational matrix whose cells are the truncated cells of `M`. -/
def truncEntries {nr nc : ℕ} (M : Matrix (Fin nr) (Fin nc) ℚ) :
    Matrix (Fin nr) (Fin nc) ℚ :=
  fun i j => (truncQ (M i j) : ℚ)

/-- Row scores of `apply_simplified_method` (lines 239-241): the adjacency
cells are cast to int before `calculate_scores`. -/
noncomputable def simplifiedRowScores {nr nc : ℕ}
    (M : Matrix (Fin nr) (Fin nc) ℚ) (U : Fin nr → ℝ) : List ℝ :=
  scoresList (castIntMatrix M) U

/-- Column scores of `apply_simplified_method` (lines 240-242): the
transposed adjacency cells are cast to int before `calculate_scores`. -/
noncomputable def simplifiedColScores {nr nc : ℕ}
    (M : Matrix (Fin nr) (Fin nc) ℚ) (V : Fin nc → ℝ) : List ℝ :=
  scoresList (castIntMatrix M.transpose) V

/-- Row scores of `apply_method` (lines 300-301): the same int cast is
applied to the adjacency matrix before `calculate_scores`. -/
noncomputable def applyMethodRowScores {nr nc : ℕ}
    (M : Matrix (Fin nr) (Fin nc) ℚ) (U : Fin nr → ℝ) : List ℝ :=
  scoresList (castIntMatrix M) U

/-! ### Spec-side comparison definitions and concrete inputs -/

/-- Distinct-target count of a source over a record set. -/
def distinctTargets (df1 : List IRec) (s : ℕ) : ℕ :=
  (uniqueFirst ((df1.filter (fun r => decide (r.source = s))).map (·.target))).length

/-- Stated from the spec's words (claim C3), for comparison with the code's
`topSources`: "compute each source's distinct-target count over the
n-filtered set; retain only the top-m sources by that count (ties broken by
stable sort order — first-seen order preserved)". -/
def topSourcesSpec (df1 : List IRec) (m : ℕ) : List ℕ :=
  (sortBy (fun a b => decide (distinctTargets df1 b ≤ distinctTargets df1 a))
      (uniqueFirst (df1.map (·.source)))).take m

/-- Stated from the spec's words (claim C9), for comparison with the code's
row labels: "row order is the order of first appearance of the retained
targets" in the filtered interaction set. -/
def rowOrderSpec (df2 : List IRec) : List ℕ :=
  uniqueFirst (df2.map (·.target))

/-- Two targets, each interacting once with sources 1 and 2 (weights 1). -/
def dfc7 : List IRec := [⟨1, 1, 1⟩, ⟨1, 2, 1⟩, ⟨2, 1, 1⟩, ⟨2, 2, 1⟩]

/-- Source 1 has three records but one distinct target; source 2 has two
records and two distinct targets; source 3 has one of each. -/
def dfc3 : List IRec := [⟨1, 1, 1⟩, ⟨1, 1, 1⟩, ⟨1, 1, 1⟩, ⟨1, 2, 1⟩, ⟨2, 2, 1⟩, ⟨2, 3, 1⟩]

/-- Target 2 appears before target 1 in the interaction order. -/
def dfc9 : List IRec := [⟨2, 1, 1⟩, ⟨2, 2, 1⟩, ⟨1, 1, 1⟩, ⟨1, 2, 1⟩]

/-- A weighted table whose explicit weights are all zero. -/
def dfc2 : List IRec := [⟨1, 1, 0⟩, ⟨1, 2, 0⟩]

/-- Three records over two targets; target 1 has two records. -/
def dfc8 : List IRec := [⟨1, 1, 1⟩, ⟨1, 2, 1⟩, ⟨2, 1, 1⟩]

/-- The adjacency matrix built from `dfc2` (explicit zero weights). -/
def Mc2 : AdjMatrix := (makeAdjacency dfc2 true none none 2 []).getD ⟨[], [], fun _ _ => 0⟩

/-- The adjacency matrix built from `dfc7` with the explicit weight column. -/
def Mc2w : AdjMatrix := (makeAdjacency dfc7 true none none 2 []).getD ⟨[], [], fun _ _ => 0⟩

/-- The adjacency matrix built from `dfc9` with the explicit weight column. -/
def Mc9 : AdjMatrix := (makeAdjacency dfc9 true none none 2 []).getD ⟨[], [], fun _ _ => 0⟩

/-- The all-ones 2x2 matrix, over the reals. -/
noncomputable def Aones : Matrix (Fin 2) (Fin 2) ℝ := fun _ _ => 1

/-- A concrete SVD oracle column. -/
noncomputable def Uc : Fin 2 → ℝ := fun i => if i.val = 0 then 1 else 0

/-- Two aggregation rows with weight 1. -/
def rows6 : List SRow := [⟨1, 3, 1⟩, ⟨2, 5, 1⟩]

theorem mem_uniqueFirstAux {α : Type} [DecidableEq α] (a : α) :
    ∀ (l seen : List α), a ∈ uniqueFirstAux seen l ↔ (a ∈ l ∧ a ∉ seen) := by
  intro l
  induction l with
  | nil => intro seen; simp [uniqueFirstAux]
  | cons x xs ih =>
    intro seen
    by_cases hx : x ∈ seen
    · rw [uniqueFirstAux, if_pos hx, ih]
      constructor
      · rintro ⟨h1, h2⟩
        exact ⟨List.mem_cons_of_mem _ h1, h2⟩
      · rintro ⟨h1, h2⟩
        rcases List.mem_cons.mp h1 with rfl | h
        · exact absurd hx h2
        · exact ⟨h, h2⟩
    · rw [uniqueFirstAux, if_neg hx]
      constructor
      · intro h
        rcases List.mem_cons.mp h with rfl | h
        · exact ⟨List.mem_cons_self a xs, hx⟩
        · rcases (ih (x :: seen)).mp h with ⟨h1, h2⟩
          exact ⟨List.mem_cons_of_mem _ h1, fun hc => h2 (List.mem_cons_of_mem _ hc)⟩
      · rintro ⟨h1, h2⟩
        rcases List.mem_cons.mp h1 with rfl | h
        · exact List.mem_cons_self a _
        · by_cases hax : a = x
          · subst hax
            exact List.mem_cons_self a _
          · refine List.mem_cons_of_mem _ ((ih (x :: seen)).mpr ⟨h, ?_⟩)
            intro hc
            rcases List.mem_cons.mp hc with h' | h'
            · exact hax h'
            · exact h2 h'

theorem mem_uniqueFirst {α : Type} [DecidableEq α] {a : α} {l : List α} :
    a ∈ uniqueFirst l ↔ a ∈ l := by
  unfold uniqueFirst
  rw [mem_uniqueFirstAux]
  simp

theorem nodup_uniqueFirstAux {α : Type} [DecidableEq α] :
    ∀ (l seen : List α), (uniqueFirstAux seen l).Nodup := by
  intro l
  induction l with
  | nil => intro seen; simp [uniqueFirstAux]
  | cons x xs ih =>
    intro seen
    by_cases hx : x ∈ seen
    · simpa [uniqueFirstAux, if_pos hx] using ih seen
    · rw [uniqueFirstAux, if_neg hx]
      refine List.nodup_cons.mpr ⟨?_, ih (x :: seen)⟩
      intro hc
      exact ((mem_uniqueFirstAux x xs (x :: seen)).mp hc).2 (List.mem_cons_self x seen)

theorem nodup_uniqueFirst {α : Type} [DecidableEq α] (l : List α) :
    (uniqueFirst l).Nodup :=
  nodup_uniqueFirstAux l []

theorem uniqueFirst_eq_nil {α : Type} [DecidableEq α] {l : List α} :
    uniqueFirst l = [] ↔ l = [] := by
  cases l with
  | nil => simp [uniqueFirst, uniqueFirstAux]
  | cons x xs => simp [uniqueFirst, uniqueFirstAux]

theorem map_uniqueFirstAux {α β : Type} [DecidableEq α] [DecidableEq β]
    (f : α → β) (hf : Function.Injective f) :
    ∀ (l seen : List α),
      uniqueFirstAux (seen.map f) (l.map f) = (uniqueFirstAux seen l).map f := by
  intro l
  induction l with
  | nil => intro seen; simp [uniqueFirstAux]
  | cons x xs ih =>
    intro seen
    by_cases hx : x ∈ seen
    · have hfx : f x ∈ seen.map f := List.mem_map_of_mem f hx
      simp only [List.map_cons, uniqueFirstAux, if_pos hx, if_pos hfx]
      exact ih seen
    · have hfx : f x ∉ seen.map f := by
        intro hc
        rcases List.mem_map.mp hc with ⟨y, hy, hxy⟩
        exact hx (hf hxy ▸ hy)
      simp only [List.map_cons, uniqueFirstAux, if_pos hx, if_neg hfx, if_neg hx]
      rw [← List.map_cons f x seen, ih (x :: seen)]

theorem insertBy_perm {α : Type} (le : α → α → Bool) (x : α) :
    ∀ l : List α, (insertBy le x l).Perm (x :: l) := by
  intro l
  induction l with
  | nil => simp [insertBy]
  | cons y ys ih =>
    by_cases h : le x y
    · simp [insertBy, h]
    · rw [insertBy, if_neg h]
      exact (ih.cons y).trans (List.Perm.swap x y ys)

theorem sortBy_perm {α : Type} (le : α → α → Bool) :
    ∀ l : List α, (sortBy le l).Perm l := by
  intro l
  induction l with
  | nil => simp [sortBy]
  | cons x xs ih =>
    exact (insertBy_perm le x (sortBy le xs)).trans (ih.cons x)

theorem mem_sortBy {α : Type} {le : α → α → Bool} {a : α} {l : List α} :
    a ∈ sortBy le l ↔ a ∈ l :=
  (sortBy_perm le l).mem_iff

theorem nodup_sortBy {α : Type} (le : α → α → Bool) {l : List α}
    (h : l.Nodup) : (sortBy le l).Nodup :=
  ((sortBy_perm le l).nodup_iff).mpr h

theorem length_sortBy {α : Type} (le : α → α → Bool) (l : List α) :
    (sortBy le l).length = l.length :=
  (sortBy_perm le l).length_eq

theorem pairwise_insertBy {α : Type} {le : α → α → Bool} {R : α → α → Prop}
    (h1 : ∀ a b, le a b = true → R a b)
    (h2 : ∀ a b, le a b = false → R b a)
    (htr : ∀ a b c, R a b → R b c → R a c) (x : α) :
    ∀ l : List α, l.Pairwise R → (insertBy le x l).Pairwise R := by
  intro l
  induction l with
  | nil => intro _; simp [insertBy]
  | cons y ys ih =>
    intro hp
    rcases List.pairwise_cons.mp hp with ⟨hy, hys⟩
    by_cases h : le x y
    · rw [insertBy, if_pos h]
      refine List.pairwise_cons.mpr ⟨?_, hp⟩
      intro z hz
      rcases List.mem_cons.mp hz with rfl | hz
      · exact h1 x z h
      · exact htr x y z (h1 x y h) (hy z hz)
    · rw [insertBy, if_neg h]
      refine List.pairwise_cons.mpr ⟨?_, ih hys⟩
      intro z hz
      rcases List.mem_cons.mp ((insertBy_perm le x ys).mem_iff.mp hz) with hzx | hz
      · rw [hzx]
        exact h2 x y (by simpa using h)
      · exact hy z hz

theorem pairwise_sortBy {α : Type} {le : α → α → Bool} {R : α → α → Prop}
    (h1 : ∀ a b, le a b = true → R a b)
    (h2 : ∀ a b, le a b = false → R b a)
    (htr : ∀ a b c, R a b → R b c → R a c) :
    ∀ l : List α, (sortBy le l).Pairwise R := by
  intro l
  induction l with
  | nil => simp [sortBy]
  | cons x xs ih => exact pairwise_insertBy h1 h2 htr x _ ih

theorem map_insertBy {α β : Type} {le₁ : α → α → Bool} {le₂ : β → β → Bool}
    (f : α → β) (hle : ∀ a b, le₂ (f a) (f b) = le₁ a b) (x : α) :
    ∀ l : List α, insertBy le₂ (f x) (l.map f) = (insertBy le₁ x l).map f := by
  intro l
  induction l with
  | nil => simp [insertBy]
  | cons y ys ih =>
    by_cases h : le₁ x y
    · simp [insertBy, hle, h]
    · simp [insertBy, hle, h, ih]

theorem map_sortBy {α β : Type} {le₁ : α → α → Bool} {le₂ : β → β → Bool}
    (f : α → β) (hle : ∀ a b, le₂ (f a) (f b) = le₁ a b) :
    ∀ l : List α, sortBy le₂ (l.map f) = (sortBy le₁ l).map f := by
  intro l
  induction l with
  | nil => simp [sortBy]
  | cons x xs ih =>
    simp only [List.map_cons, sortBy, ih]
    exact map_insertBy f hle x (sortBy le₁ xs)

theorem take_subset_take {α : Type} {m₁ m₂ : ℕ} (h : m₁ ≤ m₂) (l : List α) :
    l.take m₁ ⊆ l.take m₂ := by
  intro a ha
  have : l.take m₁ = (l.take m₂).take m₁ := by
    rw [List.take_take, min_eq_left h]
  rw [this] at ha
  exact List.take_subset m₁ (l.take m₂) ha

theorem le_sum_map_of_mem {α : Type} (f : α → ℚ) {a : α} :
    ∀ {l : List α}, a ∈ l → (∀ b ∈ l, 0 ≤ f b) → f a ≤ (l.map f).sum := by
  intro l
  induction l with
  | nil => intro h; cases h
  | cons x xs ih =>
    intro ha hnn
    rcases List.mem_cons.mp ha with rfl | ha
    · have hs : 0 ≤ (xs.map f).sum := by
        refine List.sum_nonneg ?_
        intro q hq
        rcases List.mem_map.mp hq with ⟨b, hb, rfl⟩
        exact hnn b (List.mem_cons_of_mem _ hb)
      rw [List.map_cons, List.sum_cons]
      exact le_add_of_nonneg_right hs
    · have h1 : f a ≤ (xs.map f).sum :=
        ih ha (fun b hb => hnn b (List.mem_cons_of_mem _ hb))
      have h2 : 0 ≤ f x := hnn x (List.mem_cons_self x xs)
      rw [List.map_cons, List.sum_cons]
      exact h1.trans (le_add_of_nonneg_left h2)

theorem sum_map_pos {α : Type} (f : α → ℚ) {a : α} {l : List α}
    (ha : a ∈ l) (hpos : 0 < f a) (hnn : ∀ b ∈ l, 0 ≤ f b) :
    0 < (l.map f).sum :=
  lt_of_lt_of_le hpos (le_sum_map_of_mem f ha hnn)

theorem zip_map_self {α β : Type} (g : α → β) :
    ∀ l : List α, l.zip (l.map g) = l.map (fun x => (x, g x)) := by
  intro l
  induction l with
  | nil => simp
  | cons x xs ih => simp [ih]

theorem mem_groupKeys {t : ℕ} {l : List ℕ} : t ∈ groupKeys l ↔ t ∈ l := by
  unfold groupKeys
  rw [mem_sortBy, mem_uniqueFirst]

theorem nodup_groupKeys (l : List ℕ) : (groupKeys l).Nodup :=
  nodup_sortBy _ (nodup_uniqueFirst l)

theorem mem_dropStage {drop : List ℕ} {df : List IRec} {r : IRec} :
    r ∈ dropStage drop df ↔ r ∈ df ∧ r.target ∉ drop ∧ r.source ∉ drop := by
  unfold dropStage
  rw [List.mem_filter]
  simp

theorem mem_th0 {df : List IRec} {k : ℕ} {r : IRec} :
    r ∈ th0 df k ↔ r ∈ df ∧ countTarget df r.target < k := by
  unfold th0
  rw [List.mem_filter]
  constructor
  · rintro ⟨h1, h2⟩
    rw [decide_eq_true_eq] at h2
    rcases List.mem_filter.mp h2 with ⟨_, hc⟩
    exact ⟨h1, by simpa using hc⟩
  · rintro ⟨h1, h2⟩
    refine ⟨h1, decide_eq_true ?_⟩
    refine List.mem_filter.mpr ⟨?_, by simpa using h2⟩
    exact mem_groupKeys.mpr (List.mem_map_of_mem _ h1)

theorem mem_targetsTh1 {df0 : List IRec} {n t : ℕ} :
    t ∈ targetsTh1 df0 n ↔
      t ∈ df0.map (·.target) ∧ n ≤ (distinctSources df0 t).length := by
  unfold targetsTh1
  rw [List.mem_filter, mem_groupKeys]
  simp

theorem mem_th1 {df0 : List IRec} {n : ℕ} {r : IRec} :
    r ∈ th1 df0 n ↔ r ∈ df0 ∧ n ≤ (distinctSources df0 r.target).length := by
  unfold th1
  rw [List.mem_filter]
  constructor
  · rintro ⟨h1, h2⟩
    rw [decide_eq_true_eq, mem_targetsTh1] at h2
    exact ⟨h1, h2.2⟩
  · rintro ⟨h1, h2⟩
    refine ⟨h1, decide_eq_true (mem_targetsTh1.mpr ⟨List.mem_map_of_mem _ h1, h2⟩)⟩

theorem mem_th2 {df1 : List IRec} {m : ℕ} {r : IRec} :
    r ∈ th2 df1 m ↔ r ∈ df1 ∧ r.source ∈ topSources df1 m := by
  unfold th2
  rw [List.mem_filter]
  simp

theorem mem_sourceList {df2 : List IRec} {s : ℕ} :
    s ∈ sourceList df2 ↔ ∃ r ∈ df2, r.source = s := by
  unfold sourceList
  rw [mem_uniqueFirst, List.mem_map]

theorem countPair_pos {df2 : List IRec} {r : IRec} (hr : r ∈ df2) :
    0 < countPair df2 r.target r.source := by
  unfold countPair
  rw [List.length_pos]
  intro hnil
  have : r ∈ df2.filter (fun x => decide (x.target = r.target ∧ x.source = r.source)) :=
    List.mem_filter.mpr ⟨hr, by simp⟩
  rw [hnil] at this
  cases this

theorem mem_dfwOf_false {df2 : List IRec} {r' : IRec} :
    r' ∈ dfwOf false df2 ↔
      (∃ r ∈ df2, r.target = r'.target ∧ r.source = r'.source) ∧
        r'.w = (countPair df2 r'.target r'.source : ℚ) := by
  unfold dfwOf
  simp only [Bool.false_eq_true, if_false, List.mem_map, mem_sortBy, mem_uniqueFirst]
  constructor
  · rintro ⟨p, hp, rfl⟩
    rcases hp with ⟨r, hr, rfl⟩
    exact ⟨⟨r, hr, rfl, rfl⟩, rfl⟩
  · rintro ⟨⟨r, hr, ht, hs⟩, hw⟩
    refine ⟨(r'.target, r'.source), ?_, ?_⟩
    · exact ⟨r, hr, by rw [ht, hs]⟩
    · cases r'
      simp_all

theorem dfwOf_pos {weightFlag : Bool} {df2 : List IRec}
    (hw : ∀ r ∈ df2, weightFlag = true → 0 < r.w) :
    ∀ r' ∈ dfwOf weightFlag df2, 0 < r'.w := by
  intro r' hr'
  cases weightFlag with
  | true => exact hw r' (by simpa [dfwOf] using hr') rfl
  | false =>
    rcases mem_dfwOf_false.mp hr' with ⟨⟨r, hr, ht, hs⟩, hwq⟩
    rw [hwq]
    have := countPair_pos hr
    rw [ht, hs] at this
    exact_mod_cast this

theorem dfwOf_source_mem {weightFlag : Bool} {df2 : List IRec} :
    ∀ r' ∈ dfwOf weightFlag df2, r'.source ∈ sourceList df2 := by
  intro r' hr'
  cases weightFlag with
  | true =>
    exact mem_sourceList.mpr ⟨r', by simpa [dfwOf] using hr', rfl⟩
  | false =>
    rcases mem_dfwOf_false.mp hr' with ⟨⟨r, hr, ht, hs⟩, _⟩
    exact mem_sourceList.mpr ⟨r, hr, hs⟩

theorem dfwOf_target_mem {weightFlag : Bool} {df2 : List IRec} {t : ℕ} :
    t ∈ (dfwOf weightFlag df2).map (·.target) ↔ t ∈ df2.map (·.target) := by
  cases weightFlag with
  | true => simp [dfwOf]
  | false =>
    constructor
    · intro h
      rcases List.mem_map.mp h with ⟨r', hr', rfl⟩
      rcases mem_dfwOf_false.mp hr' with ⟨⟨r, hr, ht, _⟩, _⟩
      exact List.mem_map.mpr ⟨r, hr, ht⟩
    · intro h
      rcases List.mem_map.mp h with ⟨r, hr, rfl⟩
      refine List.mem_map.mpr ⟨⟨r.target, r.source, (countPair df2 r.target r.source : ℚ)⟩, ?_, rfl⟩
      exact mem_dfwOf_false.mpr ⟨⟨r, hr, rfl, rfl⟩, rfl⟩

theorem dfwOf_pair_mem (weightFlag : Bool) {df2 : List IRec} {r : IRec}
    (hr : r ∈ df2) :
    ∃ r' ∈ dfwOf weightFlag df2, r'.target = r.target ∧ r'.source = r.source := by
  cases weightFlag with
  | true => exact ⟨r, by simpa [dfwOf] using hr, rfl, rfl⟩
  | false =>
    refine ⟨⟨r.target, r.source, (countPair df2 r.target r.source : ℚ)⟩, ?_, rfl, rfl⟩
    exact mem_dfwOf_false.mpr ⟨⟨r, hr, rfl, rfl⟩, rfl⟩

theorem mem_rowIds {dfw : List IRec} {cols : List ℕ} {t : ℕ} :
    t ∈ rowIds dfw cols ↔ ∃ r ∈ dfw, r.source ∈ cols ∧ r.target = t := by
  unfold rowIds
  rw [mem_groupKeys, List.mem_map]
  constructor
  · rintro ⟨r, hr, rfl⟩
    rcases List.mem_filter.mp hr with ⟨h1, h2⟩
    exact ⟨r, h1, by simpa using h2, rfl⟩
  · rintro ⟨r, hr, hs, rfl⟩
    exact ⟨r, List.mem_filter.mpr ⟨hr, by simpa using hs⟩, rfl⟩

theorem entryOf_nonneg {dfw : List IRec} (hw : ∀ r ∈ dfw, 0 ≤ r.w) (t s : ℕ) :
    0 ≤ entryOf dfw t s := by
  unfold entryOf
  refine List.sum_nonneg ?_
  intro q hq
  rcases List.mem_map.mp hq with ⟨r, hr, rfl⟩
  exact hw r (List.mem_filter.mp hr).1

theorem entryOf_pos {dfw : List IRec} (hw : ∀ r ∈ dfw, 0 < r.w) {r₀ : IRec}
    (hr₀ : r₀ ∈ dfw) : 0 < entryOf dfw r₀.target r₀.source := by
  unfold entryOf
  refine sum_map_pos (fun r : IRec => r.w) ?_ (hw r₀ hr₀) ?_
  · exact List.mem_filter.mpr ⟨hr₀, by simp⟩
  · intro b hb
    exact le_of_lt (hw b (List.mem_filter.mp hb).1)

theorem sourceList_eq_nil {df2 : List IRec} : sourceList df2 = [] ↔ df2 = [] := by
  unfold sourceList
  rw [uniqueFirst_eq_nil, List.map_eq_nil_iff]

theorem makeAdjacency_none_iff {df : List IRec} {wf : Bool} {m k : Option ℕ}
    {n : ℕ} {drop : List ℕ} :
    makeAdjacency df wf m k n drop = none ↔
      filteredRecords df (m.getD df.length) n (k.getD (10 ^ 23)) drop = [] := by
  unfold makeAdjacency
  by_cases h : sourceList (filteredRecords df (m.getD df.length) n (k.getD (10 ^ 23)) drop) = []
  · simp only [if_pos h]
    simpa using sourceList_eq_nil.mp h
  · simp only [if_neg h]
    constructor
    · intro hc; cases hc
    · intro hc
      exact absurd (sourceList_eq_nil.mpr hc) h

theorem makeAdjacency_some {df : List IRec} {wf : Bool} {m k : Option ℕ}
    {n : ℕ} {drop : List ℕ} {M : AdjMatrix}
    (h : makeAdjacency df wf m k n drop = some M) :
    M.rows = rowIds (dfwOf wf (filteredRecords df (m.getD df.length) n (k.getD (10 ^ 23)) drop))
        (sourceList (filteredRecords df (m.getD df.length) n (k.getD (10 ^ 23)) drop)) ∧
      M.cols = sourceList (filteredRecords df (m.getD df.length) n (k.getD (10 ^ 23)) drop) ∧
      M.entry = entryOf (dfwOf wf (filteredRecords df (m.getD df.length) n (k.getD (10 ^ 23)) drop)) := by
  unfold makeAdjacency at h
  by_cases hs : sourceList (filteredRecords df (m.getD df.length) n (k.getD (10 ^ 23)) drop) = []
  · rw [if_pos hs] at h; cases h
  · rw [if_neg hs] at h
    cases h
    exact ⟨rfl, rfl, rfl⟩

theorem mem_filteredRecords_imp {df : List IRec} {mv n kv : ℕ} {drop : List ℕ}
    {r : IRec} (h : r ∈ filteredRecords df mv n kv drop) : r ∈ df := by
  unfold filteredRecords at h
  have h1 := (mem_th2.mp h).1
  have h2 := (mem_th1.mp h1).1
  have h3 := (mem_th0.mp h2).1
  exact (mem_dropStage.mp h3).1

theorem foldl_min_le {α : Type} [LinearOrder α] :
    ∀ (xs : List α) (x : α), xs.foldl min x ≤ x := by
  intro xs
  induction xs with
  | nil => intro x; exact le_refl x
  | cons y ys ih =>
    intro x
    exact le_trans (ih (min x y)) (min_le_left x y)

theorem foldl_min_le_mem {α : Type} [LinearOrder α] :
    ∀ (xs : List α) (x a : α), a ∈ xs → xs.foldl min x ≤ a := by
  intro xs
  induction xs with
  | nil => intro x a h; cases h
  | cons y ys ih =>
    intro x a h
    rcases List.mem_cons.mp h with rfl | h
    · exact le_trans (foldl_min_le ys (min x a)) (min_le_right x a)
    · exact ih (min x y) a h

theorem foldl_min_mem {α : Type} [LinearOrder α] :
    ∀ (xs : List α) (x : α), xs.foldl min x = x ∨ xs.foldl min x ∈ xs := by
  intro xs
  induction xs with
  | nil => intro x; exact Or.inl rfl
  | cons y ys ih =>
    intro x
    rcases ih (min x y) with h | h
    · rcases min_choice x y with hc | hc
      · exact Or.inl (h.trans hc)
      · refine Or.inr ?_
        rw [List.foldl_cons, h, hc]
        exact List.mem_cons_self y ys
    · exact Or.inr (List.mem_cons_of_mem y h)

theorem le_foldl_min {α : Type} [LinearOrder α] {b : α} :
    ∀ (xs : List α) (x : α), b ≤ x → (∀ a ∈ xs, b ≤ a) → b ≤ xs.foldl min x := by
  intro xs
  induction xs with
  | nil => intro x hx _; exact hx
  | cons y ys ih =>
    intro x hx h
    exact ih (min x y) (le_min hx (h y (List.mem_cons_self y ys)))
      (fun a ha => h a (List.mem_cons_of_mem y ha))

theorem listMin_le_of_mem {α : Type} [LinearOrder α] [Inhabited α] {l : List α}
    {a : α} (h : a ∈ l) : listMin l ≤ a := by
  cases l with
  | nil => cases h
  | cons x xs =>
    rcases List.mem_cons.mp h with rfl | h
    · exact foldl_min_le xs a
    · exact foldl_min_le_mem xs x a h

theorem listMin_mem {α : Type} [LinearOrder α] [Inhabited α] {l : List α}
    (h : l ≠ []) : listMin l ∈ l := by
  cases l with
  | nil => exact absurd rfl h
  | cons x xs =>
    rcases foldl_min_mem xs x with h1 | h1
    · rw [listMin, h1]; exact List.mem_cons_self x xs
    · exact List.mem_cons_of_mem x h1

theorem le_listMin {α : Type} [LinearOrder α] [Inhabited α] {l : List α} {b : α}
    (hne : l ≠ []) (h : ∀ a ∈ l, b ≤ a) : b ≤ listMin l := by
  cases l with
  | nil => exact absurd rfl hne
  | cons x xs =>
    exact le_foldl_min xs x (h x (List.mem_cons_self x xs))
      (fun a ha => h a (List.mem_cons_of_mem x ha))

theorem foldl_max_le {α : Type} [LinearOrder α] :
    ∀ (xs : List α) (x : α), x ≤ xs.foldl max x := by
  intro xs
  induction xs with
  | nil => intro x; exact le_refl x
  | cons y ys ih =>
    intro x
    exact le_trans (le_max_left x y) (ih (max x y))

theorem foldl_max_le_mem {α : Type} [LinearOrder α] :
    ∀ (xs : List α) (x a : α), a ∈ xs → a ≤ xs.foldl max x := by
  intro xs
  induction xs with
  | nil => intro x a h; cases h
  | cons y ys ih =>
    intro x a h
    rcases List.mem_cons.mp h with rfl | h
    · exact le_trans (le_max_right x a) (foldl_max_le ys (max x a))
    · exact ih (max x y) a h

theorem foldl_max_mem {α : Type} [LinearOrder α] :
    ∀ (xs : List α) (x : α), xs.foldl max x = x ∨ xs.foldl max x ∈ xs := by
  intro xs
  induction xs with
  | nil => intro x; exact Or.inl rfl
  | cons y ys ih =>
    intro x
    rcases ih (max x y) with h | h
    · rcases max_choice x y with hc | hc
      · exact Or.inl (h.trans hc)
      · refine Or.inr ?_
        rw [List.foldl_cons, h, hc]
        exact List.mem_cons_self y ys
    · exact Or.inr (List.mem_cons_of_mem y h)

theorem foldl_max_le_of {α : Type} [LinearOrder α] {b : α} :
    ∀ (xs : List α) (x : α), x ≤ b → (∀ a ∈ xs, a ≤ b) → xs.foldl max x ≤ b := by
  intro xs
  induction xs with
  | nil => intro x hx _; exact hx
  | cons y ys ih =>
    intro x hx h
    exact ih (max x y) (max_le hx (h y (List.mem_cons_self y ys)))
      (fun a ha => h a (List.mem_cons_of_mem y ha))

theorem le_listMax_of_mem {α : Type} [LinearOrder α] [Inhabited α] {l : List α}
    {a : α} (h : a ∈ l) : a ≤ listMax l := by
  cases l with
  | nil => cases h
  | cons x xs =>
    rcases List.mem_cons.mp h with rfl | h
    · exact foldl_max_le xs a
    · exact foldl_max_le_mem xs x a h

theorem listMax_mem {α : Type} [LinearOrder α] [Inhabited α] {l : List α}
    (h : l ≠ []) : listMax l ∈ l := by
  cases l with
  | nil => exact absurd rfl h
  | cons x xs =>
    rcases foldl_max_mem xs x with h1 | h1
    · rw [listMax, h1]; exact List.mem_cons_self x xs
    · exact List.mem_cons_of_mem x h1

theorem listMax_le {α : Type} [LinearOrder α] [Inhabited α] {l : List α} {b : α}
    (hne : l ≠ []) (h : ∀ a ∈ l, a ≤ b) : listMax l ≤ b := by
  cases l with
  | nil => exact absurd rfl hne
  | cons x xs =>
    exact foldl_max_le_of xs x (h x (List.mem_cons_self x xs))
      (fun a ha => h a (List.mem_cons_of_mem x ha))

/-- Claim C8: the k-threshold retains exactly the records whose target's
total interaction count over the drop-filtered table is strictly less than
`k`; with `k = 1`, any target with 2 or more raw records is excluded. -/
theorem c8_k_threshold_strict (df : List IRec) (k : ℕ) (r : IRec) :
    (r ∈ th0 df k ↔ r ∈ df ∧ countTarget df r.target < k) ∧
    (∀ t, 2 ≤ countTarget df t → ∀ r' ∈ th0 df 1, r'.target ≠ t) := by
  refine ⟨mem_th0, ?_⟩
  intro t ht r' hr' hrt
  have h := (mem_th0.mp hr').2
  rw [hrt] at h
  omega

/-- Witness for C8 on a concrete table: the record of target 2 is kept at
`k = 2` (its count is 1), and target 1, which has two records, is excluded
at `k = 1`. -/
theorem c8_k_threshold_strict_witness :
    ((⟨2, 1, 1⟩ : IRec) ∈ th0 dfc8 2 ↔
      (⟨2, 1, 1⟩ : IRec) ∈ dfc8 ∧ countTarget dfc8 2 < 2) ∧
    (2 ≤ countTarget dfc8 1 ∧ ∀ r' ∈ th0 dfc8 1, r'.target ≠ 1) :=
  ⟨(c8_k_threshold_strict dfc8 2 ⟨2, 1, 1⟩).1,
    by decide,
    (c8_k_threshold_strict dfc8 2 ⟨2, 1, 1⟩).2 1 (by decide)⟩

/-- Claim C5, amended: `make_adjacency` raises no dedicated errors; the one
failure (the empty `pd.concat`, a pandas `ValueError`, embedded as `none`)
happens exactly when the three filtering stages leave no record. -/
theorem c5_failure_iff_empty (df : List IRec) (wf : Bool) (m k : Option ℕ)
    (n : ℕ) (drop : List ℕ) :
    makeAdjacency df wf m k n drop = none ↔
      filteredRecords df (m.getD df.length) n (k.getD (10 ^ 23)) drop = [] :=
  makeAdjacency_none_iff

/-- Counterexample to C5 as stated: `n = 0 < 1` is accepted without any
`InvalidParameterError` — the call simply returns a matrix. -/
theorem c5_counterexample :
    (makeAdjacency dfc7 false none none 0 []).isSome = true := by decide

/-- Claim C7, amended: raising `n` shrinks (or leaves unchanged) the set of
targets retained by threshold 1, while raising `m` grows (or leaves
unchanged) the set of top-`m` sources retained by threshold 2. -/
theorem c7_threshold_monotonicity (df0 df1 : List IRec) (n1 n2 m1 m2 : ℕ) :
    (n1 ≤ n2 → ∀ t ∈ targetsTh1 df0 n2, t ∈ targetsTh1 df0 n1) ∧
    (m1 ≤ m2 → ∀ s ∈ topSources df1 m1, s ∈ topSources df1 m2) := by
  constructor
  · intro h t ht
    rcases mem_targetsTh1.mp ht with ⟨h1, h2⟩
    exact mem_targetsTh1.mpr ⟨h1, le_trans h h2⟩
  · intro h s hs
    exact take_subset_take h _ hs

/-- Witness for C7 (amended) on a concrete table. -/
theorem c7_threshold_monotonicity_witness :
    (1 ≤ 2 ∧ 1 ∈ targetsTh1 dfc3 2 ∧ 1 ∈ targetsTh1 dfc3 1) ∧
    (1 ≤ 2 ∧ 1 ∈ topSources dfc3 1 ∧ 1 ∈ topSources dfc3 2) :=
  ⟨⟨by decide, by decide,
      (c7_threshold_monotonicity dfc3 dfc3 1 2 1 2).1 (by decide) 1 (by decide)⟩,
    ⟨by decide, by decide,
      (c7_threshold_monotonicity dfc3 dfc3 1 2 1 2).2 (by decide) 1 (by decide)⟩⟩

/-- Counterexample to C7 as stated: raising `m` from 1 to 2 grows the
retained source set of `make_adjacency` — source 2 appears at `m = 2` but
not at `m = 1`. -/
theorem c7_counterexample :
    (makeAdjacency dfc7 false (some 1) none 2 []).map AdjMatrix.cols = some [1] ∧
    (makeAdjacency dfc7 false (some 2) none 2 []).map AdjMatrix.cols = some [1, 2] ∧
    (2 : ℕ) ∈ [1, 2] ∧ (2 : ℕ) ∉ ([1] : List ℕ) := by decide

/-- Claim C3, amended: the m-threshold retains `min m (number of sources)`
sources, and every retained source has at least as many interaction records
over the n-filtered set as every non-retained source — the ranking metric is
the total record count, not the distinct-target count. -/
theorem c3_top_sources_by_records (df1 : List IRec) (m : ℕ) :
    (∀ s ∈ topSources df1 m, ∀ s', s' ∈ df1.map (·.source) →
        s' ∉ topSources df1 m → countSource df1 s' ≤ countSource df1 s) ∧
    (topSources df1 m).length = min m (uniqueFirst (df1.map (·.source))).length := by
  constructor
  · intro s hs s' hs'src hs'not
    have hpw : (sortBy (fun a b => decide (countSource df1 b ≤ countSource df1 a))
        (groupKeys (df1.map (·.source)))).Pairwise
          (fun a b => countSource df1 b ≤ countSource df1 a) := by
      refine pairwise_sortBy ?_ ?_ ?_ _
      · intro a b hab
        exact of_decide_eq_true hab
      · intro a b hab
        exact le_of_not_le (of_decide_eq_false hab)
      · intro a b c h1 h2
        exact le_trans h2 h1
    have hs'sorted : s' ∈ (sortBy (fun a b => decide (countSource df1 b ≤ countSource df1 a))
        (groupKeys (df1.map (·.source)))) :=
      mem_sortBy.mpr (mem_groupKeys.mpr hs'src)
    rw [← List.take_append_drop m (sortBy (fun a b => decide (countSource df1 b ≤ countSource df1 a))
        (groupKeys (df1.map (·.source))))] at hpw hs'sorted
    rcases List.mem_append.mp hs'sorted with h | h
    · exact absurd h hs'not
    · exact (List.pairwise_append.mp hpw).2.2 s hs s' h
  · unfold topSources
    rw [List.length_take, length_sortBy]
    unfold groupKeys
    rw [length_sortBy]

/-- Witness for C3 (amended) on a concrete table: source 1 (3 records) is
the single retained source at `m = 1`, and source 2 (2 records) is not
retained. -/
theorem c3_top_sources_by_records_witness :
    (1 ∈ topSources dfc3 1 ∧ 2 ∈ dfc3.map (·.source) ∧ 2 ∉ topSources dfc3 1 ∧
      countSource dfc3 2 ≤ countSource dfc3 1) ∧
    (topSources dfc3 1).length = min 1 (uniqueFirst (dfc3.map (·.source))).length :=
  ⟨⟨by decide, by decide, by decide,
      (c3_top_sources_by_records dfc3 1).1 1 (by decide) 2 (by decide) (by decide)⟩,
    (c3_top_sources_by_records dfc3 1).2⟩

/-- Counterexample to C3 as stated: with `m = 1`, the code retains source 1
(3 records, 1 distinct target), while the spec's distinct-target ranking
would retain source 2 (2 records, 2 distinct targets). -/
theorem c3_counterexample :
    topSources dfc3 1 = [1] ∧ topSourcesSpec dfc3 1 = [2] ∧
    countSource dfc3 1 = 3 ∧ distinctTargets dfc3 1 = 1 ∧
    countSource dfc3 2 = 2 ∧ distinctTargets dfc3 2 = 2 ∧
    ([1] : List ℕ) ≠ [2] := by decide

/-- Claim C9, amended: the column labels of the returned matrix are the
retained sources in first-encounter order over the filtered interaction
set, while the row labels are the retained targets sorted in ascending
identifier order (the final `groupby('target')` sorts its keys), not in
first-appearance order. -/
theorem c9_label_order (df : List IRec) (wf : Bool) (m k : Option ℕ) (n : ℕ)
    (drop : List ℕ) (M : AdjMatrix)
    (hM : makeAdjacency df wf m k n drop = some M) :
    M.cols = uniqueFirst ((filteredRecords df (m.getD df.length) n
        (k.getD (10 ^ 23)) drop).map (·.source)) ∧
    M.rows.Pairwise (· ≤ ·) ∧
    (∀ t, t ∈ M.rows ↔ t ∈ (filteredRecords df (m.getD df.length) n
        (k.getD (10 ^ 23)) drop).map (·.target)) := by
  obtain ⟨hr, hc, _⟩ := makeAdjacency_some hM
  refine ⟨hc, ?_, ?_⟩
  · rw [hr]
    unfold rowIds groupKeys
    refine pairwise_sortBy ?_ ?_ ?_ _
    · intro a b hab
      exact of_decide_eq_true hab
    · intro a b hab
      exact le_of_not_le (of_decide_eq_false hab)
    · intro a b c h1 h2
      exact le_trans h1 h2
  · intro t
    rw [hr, mem_rowIds]
    constructor
    · rintro ⟨r', hr', _, rfl⟩
      exact dfwOf_target_mem.mp (List.mem_map_of_mem _ hr')
    · intro hT
      rcases List.mem_map.mp (dfwOf_target_mem.mpr hT) with ⟨r', hr', rfl⟩
      exact ⟨r', hr', dfwOf_source_mem r' hr', rfl⟩

/-- Witness for C9 (amended): on `dfc9` the built matrix exists, its rows
are sorted ascending, and its columns are the first-encounter sources. -/
theorem c9_label_order_witness :
    makeAdjacency dfc9 true none none 2 [] = some Mc9 ∧
    Mc9.rows.Pairwise (· ≤ ·) ∧
    Mc9.cols = uniqueFirst ((filteredRecords dfc9 ((none : Option ℕ).getD dfc9.length) 2
        ((none : Option ℕ).getD (10 ^ 23)) []).map (·.source)) :=
  ⟨by with_unfolding_all rfl,
    (c9_label_order dfc9 true none none 2 [] Mc9 (by with_unfolding_all rfl)).2.1,
    (c9_label_order dfc9 true none none 2 [] Mc9 (by with_unfolding_all rfl)).1⟩

/-- Counterexample to C9 as stated: over `dfc9` the filtered set lists the
targets in first-appearance order 2, 1, but the matrix rows come out in
ascending order 1, 2. -/
theorem c9_counterexample :
    (makeAdjacency dfc9 true none none 2 []).map AdjMatrix.rows = some [1, 2] ∧
    rowOrderSpec (filteredRecords dfc9 4 2 (10 ^ 23) []) = [2, 1] ∧
    ([1, 2] : List ℕ) ≠ [2, 1] := by decide

/-- Claim C2, amended: every row and column of the produced adjacency matrix
has a strictly positive sum whenever the weights entering the matrix are
positive — always the case for derived count weights (`weight=False`), and
true for an explicit weight column provided all its values are positive.
The unconditional claim fails for explicit non-positive weights. -/
theorem c2_positive_row_col_sums (df : List IRec) (wf : Bool) (m k : Option ℕ)
    (n : ℕ) (drop : List ℕ) (M : AdjMatrix)
    (hM : makeAdjacency df wf m k n drop = some M)
    (hw : ∀ r ∈ df, wf = true → 0 < r.w) :
    (∀ t ∈ M.rows, 0 < (M.cols.map (M.entry t)).sum) ∧
    (∀ s ∈ M.cols, 0 < (M.rows.map (fun t => M.entry t s)).sum) := by
  obtain ⟨hr, hc, he⟩ := makeAdjacency_some hM
  have hwF : ∀ r ∈ filteredRecords df (m.getD df.length) n (k.getD (10 ^ 23)) drop,
      wf = true → 0 < r.w :=
    fun r hrF hwf => hw r (mem_filteredRecords_imp hrF) hwf
  have hdfw := dfwOf_pos hwF
  have hnn : ∀ r' ∈ dfwOf wf (filteredRecords df (m.getD df.length) n (k.getD (10 ^ 23)) drop),
      0 ≤ r'.w :=
    fun r' h => le_of_lt (hdfw r' h)
  constructor
  · intro t ht
    rw [hr] at ht
    rcases mem_rowIds.mp ht with ⟨r₀, hr₀, hs₀, rfl⟩
    rw [hc, he]
    refine lt_of_lt_of_le (entryOf_pos hdfw hr₀) (le_sum_map_of_mem _ hs₀ ?_)
    intro s _
    exact entryOf_nonneg hnn _ s
  · intro s hs
    rw [hc] at hs
    rcases mem_sourceList.mp hs with ⟨r₁, hr₁F, rfl⟩
    rcases dfwOf_pair_mem wf hr₁F with ⟨r', hr', hT, hS⟩
    rw [hr, he]
    have htmem : r'.target ∈ rowIds
        (dfwOf wf (filteredRecords df (m.getD df.length) n (k.getD (10 ^ 23)) drop))
        (sourceList (filteredRecords df (m.getD df.length) n (k.getD (10 ^ 23)) drop)) := by
      refine mem_rowIds.mpr ⟨r', hr', ?_, rfl⟩
      rw [hS]
      exact hs
    have hpos := entryOf_pos hdfw hr'
    rw [hS] at hpos
    refine lt_of_lt_of_le hpos (le_sum_map_of_mem _ htmem ?_)
    intro t _
    exact entryOf_nonneg hnn t _

/-- Witness for C2 (amended): on `dfc7` with its all-ones explicit weight
column the matrix exists and all row sums are positive. -/
theorem c2_positive_row_col_sums_witness :
    makeAdjacency dfc7 true none none 2 [] = some Mc2w ∧
    (∀ r ∈ dfc7, (true : Bool) = true → 0 < r.w) ∧
    (∀ t ∈ Mc2w.rows, 0 < (Mc2w.cols.map (Mc2w.entry t)).sum) := by
  have hw : ∀ r ∈ dfc7, (true : Bool) = true → 0 < r.w := by
    intro r hrm _
    fin_cases hrm <;> norm_num
  exact ⟨by with_unfolding_all rfl, hw,
    (c2_positive_row_col_sums dfc7 true none none 2 [] Mc2w
      (by with_unfolding_all rfl) hw).1⟩

/-- Counterexample to C2 as stated: with an explicit weight column holding
zeros, the matrix is produced with an all-zero row (and all-zero columns) —
target 1's row sums to 0, not strictly positive. -/
theorem c2_counterexample :
    makeAdjacency dfc2 true none none 2 [] = some Mc2 ∧
    Mc2.rows = [1] ∧ Mc2.cols = [1, 2] ∧
    (Mc2.cols.map (Mc2.entry 1)).sum = 0 := by
  refine ⟨by with_unfolding_all rfl, by decide, by decide, by with_unfolding_all rfl⟩

theorem truncQ_intCast (z : ℤ) : truncQ (z : ℚ) = z := by
  unfold truncQ
  by_cases h : (0 : ℚ) ≤ (z : ℚ)
  · rw [if_pos h, Int.floor_intCast]
  · rw [if_neg h, Int.ceil_intCast]

theorem castIntMatrix_truncEntries {nr nc : ℕ} (M : Matrix (Fin nr) (Fin nc) ℚ) :
    castIntMatrix (truncEntries M) = castIntMatrix M := by
  funext i j
  unfold castIntMatrix truncEntries
  rw [truncQ_intCast]

/-- Claim C10: `apply_simplified_method` and `apply_method` cast every
adjacency cell to an integer, truncating toward zero, before computing
scores: the computed scores are unchanged when the input matrix is replaced
by its truncation, and the truncation is the toward-zero one — it never
increases the magnitude of a cell, shrinks it by strictly less than one, and
fixes integers. -/
theorem c10_scores_from_truncated_matrix {nr nc : ℕ}
    (M : Matrix (Fin nr) (Fin nc) ℚ) (U : Fin nr → ℝ) (V : Fin nc → ℝ)
    (q : ℚ) (z : ℤ) :
    simplifiedRowScores M U = simplifiedRowScores (truncEntries M) U ∧
    simplifiedColScores M V = simplifiedColScores (truncEntries M) V ∧
    applyMethodRowScores M U = applyMethodRowScores (truncEntries M) U ∧
    |(truncQ q : ℚ)| ≤ |q| ∧ |q| - 1 < |(truncQ q : ℚ)| ∧
    truncQ (z : ℚ) = z := by
  have htr : castIntMatrix (truncEntries M) = castIntMatrix M :=
    castIntMatrix_truncEntries M
  have htrT : castIntMatrix (truncEntries M).transpose = castIntMatrix M.transpose := by
    funext i j
    unfold castIntMatrix truncEntries Matrix.transpose
    simp only [Matrix.of_apply]
    rw [truncQ_intCast]
  refine ⟨?_, ?_, ?_, ?_, ?_, truncQ_intCast z⟩
  · unfold simplifiedRowScores
    rw [htr]
  · unfold simplifiedColScores
    rw [htrT]
  · unfold applyMethodRowScores
    rw [htr]
  · unfold truncQ
    by_cases h : (0 : ℚ) ≤ q
    · rw [if_pos h]
      rw [abs_of_nonneg h, abs_of_nonneg (by exact_mod_cast Int.floor_nonneg.mpr h)]
      exact_mod_cast Int.floor_le q
    · rw [if_neg h]
      push_neg at h
      rw [abs_of_neg h, abs_of_nonpos (by exact_mod_cast Int.ceil_le.mpr (by exact_mod_cast le_of_lt h))]
      exact_mod_cast neg_le_neg (Int.le_ceil q)
  · unfold truncQ
    by_cases h : (0 : ℚ) ≤ q
    · rw [if_pos h]
      rw [abs_of_nonneg h, abs_of_nonneg (by exact_mod_cast Int.floor_nonneg.mpr h)]
      exact Int.sub_one_lt_floor q
    · rw [if_neg h]
      push_neg at h
      rw [abs_of_neg h, abs_of_nonpos (by exact_mod_cast Int.ceil_le.mpr (by exact_mod_cast le_of_lt h))]
      have := Int.ceil_lt_add_one q
      linarith

/-- Claim C4: for a matrix with positive grand total and positive row and
column sums, `calculate_scores` forms `P = A / sum(A)`, marginals `r`, `c`
as row and column sums of `P`, and the standardized residual matrix
`S = Dr (P - r cᵗ) Dc` with `Dr = diag(r^-0.5)`, `Dc = diag(c^-0.5)` and
`r cᵗ` the outer product of the marginals — entrywise,
`S i j = r_i^-0.5 (P i j - r_i c_j) c_j^-0.5`. -/
theorem c4_standardized_residuals {nr nc : ℕ} (A : Matrix (Fin nr) (Fin nc) ℝ)
    (h0 : 0 < gtotal A) (hrm : ∀ i, 0 < rmarg A i) (hcm : ∀ j, 0 < cmarg A j) :
    (∀ i j, Pmat A i j = A i j / gtotal A) ∧
    (∀ i, rmarg A i = ∑ j, Pmat A i j) ∧
    (∀ j, cmarg A j = ∑ i, Pmat A i j) ∧
    (∀ i j, Smat A i j =
      invsqrt (rmarg A i) * (Pmat A i j - rmarg A i * cmarg A j) *
        invsqrt (cmarg A j)) := by
  refine ⟨?_, ?_, ?_, ?_⟩
  · intro i j
    unfold Pmat
    rw [Matrix.smul_apply]
    rw [smul_eq_mul, one_div, div_eq_inv_mul]
  · intro i
    unfold rmarg
    rw [Matrix.mulVec]
    simp [Matrix.dotProduct]
  · intro j
    unfold cmarg
    rw [Matrix.vecMul]
    simp [Matrix.dotProduct]
  · intro i j
    unfold Smat Dr2 Dc2
    rw [Matrix.mul_diagonal, Matrix.diagonal_mul, Matrix.sub_apply,
      Matrix.vecMulVec_apply]

/-- Witness for C4 at the all-ones 2x2 matrix: total 4, marginals 1/2. -/
theorem c4_standardized_residuals_witness :
    0 < gtotal Aones ∧ (∀ i, 0 < rmarg Aones i) ∧ (∀ j, 0 < cmarg Aones j) ∧
    (∀ i j, Smat Aones i j =
      invsqrt (rmarg Aones i) * (Pmat Aones i j - rmarg Aones i * cmarg Aones j) *
        invsqrt (cmarg Aones j)) := by
  have h0 : 0 < gtotal Aones := by
    norm_num [gtotal, Aones, Fin.sum_univ_two]
  have hrm : ∀ i, 0 < rmarg Aones i := by
    intro i
    norm_num [rmarg, Pmat, gtotal, Aones, Matrix.mulVec, Matrix.dotProduct,
      Matrix.smul_apply, Fin.sum_univ_two]
  have hcm : ∀ j, 0 < cmarg Aones j := by
    intro j
    norm_num [cmarg, Pmat, gtotal, Aones, Matrix.vecMul, Matrix.dotProduct,
      Matrix.smul_apply, Fin.sum_univ_two]
  exact ⟨h0, hrm, hcm,
    (c4_standardized_residuals Aones h0 hrm hcm).2.2.2⟩

theorem X_dim1_apply {nr nc : ℕ} (A : Matrix (Fin nr) (Fin nc) ℝ)
    (U : Fin nr → ℝ) (i : Fin nr) :
    X_dim1 A U i = invsqrt (rmarg A i) * U i := by
  unfold X_dim1 Dr2
  rw [Matrix.mulVec_diagonal]

theorem scale_minmax (l : List ℝ) (hne : l ≠ [])
    (hlt : listMin l < listMax l) :
    (∀ s ∈ l.map (fun v => -1 + 2 * (v - listMin l) / (listMax l - listMin l)),
      -1 ≤ s ∧ s ≤ 1) ∧
    listMin (l.map (fun v => -1 + 2 * (v - listMin l) / (listMax l - listMin l))) = -1 ∧
    listMax (l.map (fun v => -1 + 2 * (v - listMin l) / (listMax l - listMin l))) = 1 := by
  have hd : 0 < listMax l - listMin l := sub_pos.mpr hlt
  have hbound : ∀ s ∈ l.map (fun v => -1 + 2 * (v - listMin l) / (listMax l - listMin l)),
      -1 ≤ s ∧ s ≤ 1 := by
    intro s hs
    rcases List.mem_map.mp hs with ⟨v, hv, rfl⟩
    have h1 : listMin l ≤ v := listMin_le_of_mem hv
    have h2 : v ≤ listMax l := le_listMax_of_mem hv
    constructor
    · have : 0 ≤ 2 * (v - listMin l) / (listMax l - listMin l) :=
        div_nonneg (by linarith) (le_of_lt hd)
      linarith
    · have : 2 * (v - listMin l) / (listMax l - listMin l) ≤ 2 := by
        rw [div_le_iff₀ hd]
        linarith
      linarith
  have hmapne : l.map (fun v => -1 + 2 * (v - listMin l) / (listMax l - listMin l)) ≠ [] := by
    intro hc
    exact hne (List.map_eq_nil_iff.mp hc)
  have hminmem : (-1 : ℝ) ∈ l.map (fun v => -1 + 2 * (v - listMin l) / (listMax l - listMin l)) := by
    refine List.mem_map.mpr ⟨listMin l, listMin_mem hne, ?_⟩
    rw [sub_self, mul_zero, zero_div, add_zero]
  have hmaxmem : (1 : ℝ) ∈ l.map (fun v => -1 + 2 * (v - listMin l) / (listMax l - listMin l)) := by
    refine List.mem_map.mpr ⟨listMax l, listMax_mem hne, ?_⟩
    rw [mul_div_assoc, div_self (ne_of_gt hd)]
    norm_num
  refine ⟨hbound, ?_, ?_⟩
  · refine le_antisymm (listMin_le_of_mem hminmem) ?_
    exact le_listMin hmapne (fun a ha => (hbound a ha).1)
  · refine le_antisymm ?_ (le_listMax_of_mem hmaxmem)
    exact listMax_le hmapne (fun a ha => (hbound a ha).2)

/-- Claim C1: for a matrix with at least two rows whose rescaled singular
column takes at least two distinct values, `calculate_scores` with
`dimension = 1` returns one score per row, every score lies in `[-1, 1]`,
the minimum score is `-1` and the maximum is `+1`. -/
theorem c1_score_range {nr nc : ℕ} (A : Matrix (Fin nr) (Fin nc) ℝ)
    (U : Fin nr → ℝ) (h2 : 2 ≤ nr)
    (hdist : ∃ i j : Fin nr, X_dim1 A U i ≠ X_dim1 A U j) :
    (scoresList A U).length = nr ∧
    (∀ s ∈ scoresList A U, -1 ≤ s ∧ s ≤ 1) ∧
    listMin (scoresList A U) = -1 ∧ listMax (scoresList A U) = 1 := by
  have hXne : List.ofFn (X_dim1 A U) ≠ [] := by
    intro hc
    have hlen := List.length_ofFn (X_dim1 A U)
    rw [hc] at hlen
    simp at hlen
    omega
  have hlt : listMin (List.ofFn (X_dim1 A U)) < listMax (List.ofFn (X_dim1 A U)) := by
    rcases hdist with ⟨i, j, hij⟩
    have hi : X_dim1 A U i ∈ List.ofFn (X_dim1 A U) := (List.mem_ofFn _ _).mpr ⟨i, rfl⟩
    have hj : X_dim1 A U j ∈ List.ofFn (X_dim1 A U) := (List.mem_ofFn _ _).mpr ⟨j, rfl⟩
    by_contra hle
    push_neg at hle
    have hall : ∀ a ∈ List.ofFn (X_dim1 A U), a = listMin (List.ofFn (X_dim1 A U)) :=
      fun a ha => le_antisymm (le_trans (le_listMax_of_mem ha) hle) (listMin_le_of_mem ha)
    exact hij ((hall _ hi).trans (hall _ hj).symm)
  have hs := scale_minmax (List.ofFn (X_dim1 A U)) hXne hlt
  refine ⟨?_, hs.1, hs.2.1, hs.2.2⟩
  unfold scoresList
  rw [List.length_map, List.length_ofFn]

/-- Witness for C1: the all-ones 2x2 matrix with the oracle column (1, 0);
the rescaled column is (invsqrt(1/2), 0), which has two distinct values. -/
theorem c1_score_range_witness :
    2 ≤ 2 ∧ (∃ i j : Fin 2, X_dim1 Aones Uc i ≠ X_dim1 Aones Uc j) ∧
    (scoresList Aones Uc).length = 2 ∧
    listMin (scoresList Aones Uc) = -1 ∧ listMax (scoresList Aones Uc) = 1 := by
  have hr0 : rmarg Aones 0 = 1 / 2 := by
    norm_num [rmarg, Pmat, gtotal, Aones, Matrix.mulVec, Matrix.dotProduct,
      Matrix.smul_apply, Fin.sum_univ_two]
  have hx0 : X_dim1 Aones Uc 0 = invsqrt (1 / 2) := by
    rw [X_dim1_apply, hr0]
    norm_num [Uc]
  have hx1 : X_dim1 Aones Uc 1 = 0 := by
    rw [X_dim1_apply]
    norm_num [Uc]
  have hpos : 0 < invsqrt (1 / 2) := by
    unfold invsqrt
    exact inv_pos.mpr (Real.sqrt_pos.mpr (by norm_num))
  have hdist : ∃ i j : Fin 2, X_dim1 Aones Uc i ≠ X_dim1 Aones Uc j := by
    refine ⟨0, 1, ?_⟩
    rw [hx0, hx1]
    exact ne_of_gt hpos
  exact ⟨le_refl 2, hdist,
    (c1_score_range Aones Uc (le_refl 2) hdist).1,
    (c1_score_range Aones Uc (le_refl 2) hdist).2.2.1,
    (c1_score_range Aones Uc (le_refl 2) hdist).2.2.2⟩

theorem sortBy_eq_nil {α : Type} {le : α → α → Bool} {l : List α} :
    sortBy le l = [] ↔ l = [] := by
  constructor
  · intro h
    have := length_sortBy le l
    rw [h] at this
    exact List.length_eq_zero.mp this.symm
  · intro h
    rw [h]
    rfl

theorem uniqueFirst_map {α β : Type} [DecidableEq α] [DecidableEq β]
    (f : α → β) (hf : Function.Injective f) (l : List α) :
    uniqueFirst (l.map f) = (uniqueFirst l).map f := by
  unfold uniqueFirst
  have := map_uniqueFirstAux f hf l []
  simpa using this

theorem leSW_one (a b : ℕ) : leSW (a, (1 : ℚ)) (b, (1 : ℚ)) = leNat a b := by
  unfold leSW leNat
  rw [decide_eq_decide]
  constructor
  · rintro (h | ⟨h, _⟩)
    · exact le_of_lt h
    · exact le_of_eq h
  · intro h
    rcases lt_or_eq_of_le h with h | h
    · exact Or.inl h
    · exact Or.inr ⟨h, le_refl 1⟩

theorem swKeys_all_one {rows : List SRow} (hw : ∀ r ∈ rows, r.w = 1) :
    swKeys rows = (srcKeys rows).map (fun s => (s, (1 : ℚ))) := by
  unfold swKeys srcKeys
  have h1 : rows.map (fun r => (r.source, r.w)) =
      (rows.map (·.source)).map (fun s => (s, (1 : ℚ))) := by
    rw [List.map_map]
    refine List.map_congr_left ?_
    intro r hr
    simp [hw r hr]
  rw [h1, uniqueFirst_map _ (fun a b hab => (Prod.mk.injEq _ _ _ _).mp hab |>.1)]
  exact map_sortBy _ leSW_one _

theorem gScores_all_one {rows : List SRow} (hw : ∀ r ∈ rows, r.w = 1) (s : ℕ) :
    gScores rows (s, 1) = groupScores rows s := by
  unfold gScores groupScores
  congr 1
  refine List.filter_congr ?_
  intro r hr
  simp [hw r hr]

theorem wLoop_cons (rows : List SRow) (key : ℕ × ℚ) (rest : List (ℕ × ℚ))
    (last : ℕ) (sAcc lAcc : ℚ) :
    wLoop rows (key :: rest) last sAcc lAcc =
      if key.1 = last then
        (if rest = [] then [(sAcc + sContrib rows key) / (lAcc + lContrib rows key)]
         else wLoop rows rest key.1 (sAcc + sContrib rows key) (lAcc + lContrib rows key))
      else
        (sAcc / lAcc) ::
          (if rest = [] then [sContrib rows key / lContrib rows key]
           else wLoop rows rest key.1 (sContrib rows key) (lContrib rows key)) := rfl

theorem wLoop_restart (rows : List SRow) (key : ℕ × ℚ) (rest : List (ℕ × ℚ))
    (s : ℕ) (pS pL : ℚ) (hne : key.1 ≠ s) :
    wLoop rows (key :: rest) s pS pL =
      (pS / pL) :: wLoop rows (key :: rest) key.1 0 0 := by
  rw [wLoop_cons, wLoop_cons, if_neg hne, if_pos rfl]
  simp only [zero_add]

theorem wLoop_map_one (rows : List SRow) :
    ∀ (ss : List ℕ) (s₀ : ℕ), (s₀ :: ss).Chain' (· ≠ ·) →
      wLoop rows ((s₀ :: ss).map (fun s => (s, (1 : ℚ)))) s₀ 0 0 =
        (s₀ :: ss).map (fun s => sContrib rows (s, 1) / lContrib rows (s, 1)) := by
  intro ss
  induction ss with
  | nil =>
    intro s₀ _
    simp only [List.map_cons, List.map_nil]
    rw [wLoop_cons, if_pos rfl, if_pos rfl]
    rw [zero_add, zero_add]
  | cons s₁ ss' ih =>
    intro s₀ hch
    rcases List.chain'_cons.mp hch with ⟨h01, hch'⟩
    simp only [List.map_cons]
    rw [wLoop_cons, if_pos rfl, if_neg (List.cons_ne_nil _ _)]
    rw [zero_add, zero_add]
    rw [wLoop_restart rows (s₁, (1 : ℚ)) (ss'.map (fun s => (s, (1 : ℚ)))) s₀
      (sContrib rows (s₀, 1)) (lContrib rows (s₀, 1)) (by simpa using h01.symm)]
    congr 1
    have hih := ih s₁ hch'
    simp only [List.map_cons] at hih
    exact hih

/-- Claim C6: when every interaction weight equals 1, the weighted-mean
source aggregation of `apply_method` produces exactly the same per-source
scores as the unweighted aggregation. -/
theorem c6_weighted_eq_unweighted (rows : List SRow) (hne : rows ≠ [])
    (hw : ∀ r ∈ rows, r.w = 1) :
    weightedAgg rows = some (unweightedAgg rows) := by
  have hkeysne : srcKeys rows ≠ [] := by
    intro hc
    unfold srcKeys at hc
    rw [sortBy_eq_nil, uniqueFirst_eq_nil, List.map_eq_nil_iff] at hc
    exact hne hc
  obtain ⟨s₀, ss, hsk⟩ : ∃ s₀ ss, srcKeys rows = s₀ :: ss := by
    cases h : srcKeys rows with
    | nil => exact absurd h hkeysne
    | cons a l => exact ⟨a, l, rfl⟩
  have hch : (s₀ :: ss).Chain' (· ≠ ·) := by
    have hnd : (s₀ :: ss).Nodup := by
      rw [← hsk]
      exact nodup_sortBy _ (nodup_uniqueFirst _)
    exact List.Pairwise.chain' hnd
  have hswk : swKeys rows = (s₀, (1 : ℚ)) :: ss.map (fun s => (s, (1 : ℚ))) := by
    rw [swKeys_all_one hw, hsk, List.map_cons]
  unfold weightedAgg
  rw [hswk]
  show some ((srcKeys rows).zip
      (wLoop rows ((s₀, (1 : ℚ)) :: ss.map (fun s => (s, (1 : ℚ)))) s₀ 0 0)) =
    some (unweightedAgg rows)
  have hloop := wLoop_map_one rows ss s₀ hch
  simp only [List.map_cons] at hloop
  rw [hloop, hsk]
  rw [show (sContrib rows (s₀, 1) / lContrib rows (s₀, 1)
        :: ss.map (fun s => sContrib rows (s, 1) / lContrib rows (s, 1)))
      = (s₀ :: ss).map (fun s => sContrib rows (s, 1) / lContrib rows (s, 1)) from rfl]
  rw [zip_map_self]
  unfold unweightedAgg
  rw [hsk]
  congr 1
  refine List.map_congr_left ?_
  intro s _
  have hg : gScores rows (s, 1) = groupScores rows s := gScores_all_one hw s
  unfold sContrib lContrib
  rw [hg, mul_one, mul_one]

/-- Witness for C6 on two rows with weight 1. -/
theorem c6_weighted_eq_unweighted_witness :
    rows6 ≠ [] ∧ (∀ r ∈ rows6, r.w = 1) ∧
    weightedAgg rows6 = some (unweightedAgg rows6) := by
  have hne : rows6 ≠ [] := List.cons_ne_nil _ _
  have hw : ∀ r ∈ rows6, r.w = 1 := by
    intro r hr
    fin_cases hr <;> rfl
  exact ⟨hne, hw, c6_weighted_eq_unweighted rows6 hne hw⟩
